import Mathlib

/-!
# Verification of the DLT randomizer utilities

A shallow embedding of `src/dlt/randomizer_utils.py`.

The exact ("COBOL") hash kernel runs inside a Python `decimal.localcontext`
with precision 10 and rounding `ROUND_DOWN` (truncation toward zero).
Python's `decimal` represents a number as a signed integer coefficient
together with a power-of-ten exponent; we embed that representation as the
type `Dec` below and each context operation as the exact integer
operation on coefficients followed by truncation of the coefficient to 10
significant digits.  `Decimal.quantize` is modelled faithfully, including
the `InvalidOperation` error (modelled as `none`) that is signalled - and
raised, since `InvalidOperation` is trapped in Python's default context -
when the quantized coefficient would exceed the context precision.

Definitions come first (the embedding of the source and the reference
algorithms the claims compare it against), followed by the theorems.
-/

/-- `log10Aux fuel n` computes `⌊log₁₀ n⌋` by repeated division by 10,
structurally on `fuel`; it is correct whenever `n ≤ fuel`. -/
def log10Aux : ℕ → ℕ → ℕ
  | 0, _ => 0
  | fuel + 1, n => if n < 10 then 0 else log10Aux fuel (n / 10) + 1

/-- `⌊log₁₀ n⌋` for `n ≥ 1` (and `0` for `n = 0`). -/
def natLog10 (n : ℕ) : ℕ :=
  log10Aux n n

/-- The number of decimal digits of a coefficient (`1` for `0`, as in
Python's `decimal`, whose zero coefficient is the one-digit string `"0"`). -/
def numDigits (n : ℕ) : ℕ :=
  natLog10 n + 1

/-- A decimal number in Python `decimal` representation: the value
`c * 10 ^ e` for a signed integer coefficient `c` and exponent `e`. -/
structure Dec where
  c : ℤ
  e : ℤ
deriving DecidableEq

/-- The rational value of a decimal. -/
def Dec.val (d : Dec) : ℚ :=
  (d.c : ℚ) * 10 ^ d.e

/-- Round a decimal's coefficient down (toward zero) to at most `p`
significant digits: the rounding step of every context operation at
precision `p` with rounding `ROUND_DOWN`. -/
def decRound (p : ℕ) (d : Dec) : Dec :=
  let n := numDigits d.c.natAbs
  if n ≤ p then d
  else ⟨d.c.tdiv (10 ^ (n - p)), d.e + (n - p)⟩

/-- Context addition at precision 10, `ROUND_DOWN`: exact sum (coefficients
aligned to the smaller exponent), then coefficient rounding. -/
def decAdd (x y : Dec) : Dec :=
  let e := min x.e y.e
  decRound 10 ⟨x.c * 10 ^ (x.e - e).toNat + y.c * 10 ^ (y.e - e).toNat, e⟩

/-- Context subtraction at precision 10, `ROUND_DOWN`. -/
def decSub (x y : Dec) : Dec :=
  decAdd x ⟨-y.c, y.e⟩

/-- Context multiplication at precision 10, `ROUND_DOWN`: exact product,
then coefficient rounding. -/
def decMul (x y : Dec) : Dec :=
  decRound 10 ⟨x.c * y.c, x.e + y.e⟩

/-- Smallest `k` with `B * 10 ^ 9 ≤ A * 10 ^ k`, by linear search;
correct whenever the bound is reachable within `fuel` steps. -/
def upScale : ℕ → ℕ → ℕ → ℕ
  | 0, _, _ => 0
  | fuel + 1, A, B => if B * 10 ^ 9 ≤ A then 0 else upScale fuel (A * 10) B + 1

/-- Smallest `j` with `A < B * 10 ^ (10 + j)`, by linear search. -/
def downScale : ℕ → ℕ → ℕ → ℕ
  | 0, _, _ => 0
  | fuel + 1, A, B => if A < B * 10 ^ 10 then 0 else downScale fuel A (B * 10) + 1

/-- Context division at precision 10, `ROUND_DOWN`: the exact quotient
truncated toward zero to 10 significant digits.  The coefficient is scaled
so that the quotient of the magnitudes lands in `[10 ^ 9, 10 ^ 10)` and the
integer quotient is taken, truncating toward zero. -/
def decDiv (x y : Dec) : Dec :=
  if x.c = 0 then ⟨0, x.e - y.e⟩
  else
    let A := x.c.natAbs
    let B := y.c.natAbs
    let sgn : ℤ := if 0 ≤ x.c * y.c then 1 else -1
    if B * 10 ^ 9 ≤ A then
      let j := downScale (numDigits A) A B
      ⟨sgn * (A / (B * 10 ^ j) : ℕ), x.e - y.e + j⟩
    else
      let k := upScale (numDigits B + 10) A B
      ⟨sgn * (A * 10 ^ k / B : ℕ), x.e - y.e - k⟩

/-- The coefficient produced by `Decimal.quantize` to exponent `t` with
rounding `ROUND_DOWN`: the decimal's value divided by `10 ^ t`, truncated
toward zero (the local coefficient of the quantize operation). -/
def quantizeCoeff (t : ℤ) (d : Dec) : ℤ :=
  if t ≤ d.e then d.c * 10 ^ (d.e - t).toNat else d.c.tdiv (10 ^ (t - d.e).toNat)

/-- `Decimal.quantize` to exponent `t` with rounding `ROUND_DOWN` at context
precision `p`: the coefficient becomes the value divided by `10 ^ t`,
truncated toward zero; `none` (the trapped `InvalidOperation` signal) when
that coefficient would have more than `p` digits. -/
def decQuantize (p : ℕ) (t : ℤ) (d : Dec) : Option Dec :=
  if (quantizeCoeff t d).natAbs < 10 ^ p then some ⟨quantizeCoeff t d, t⟩ else none

/-- The decimal pipeline of `cobol_hash` from `randomizer_utils.py`,
returning the `Decimal` representation of `L_RAND` (or `none` for a raised
`decimal.InvalidOperation`).  The sign tests `L_SD <= 0` and `L_RAND == 0`
compare decimal values in the source; since `10 ^ e > 0`, they are
equivalent to the coefficient tests used here (`Dec.val_nonpos_iff`,
`Dec.val_eq_zero_iff` below).  The dead reassignment of `L_SD` after the
final quantization (the zero-result remediation) is kept as the unused
binding `_L_SD`, mirroring the source. -/
def cobol_hash_dec (SSN : ℕ) : Option Dec :=
  let L_SD : Dec := ⟨SSN, 0⟩
  let C_A : Dec := ⟨16807, 0⟩
  let C_M : Dec := ⟨2147483647, 0⟩
  let C_Q : Dec := ⟨127773, 0⟩
  let C_R : Dec := ⟨2836, 0⟩
  match decQuantize 10 0 (decDiv L_SD C_Q) with
  | none => none
  | some W_HI =>
    let W_LO := decSub L_SD (decMul C_Q W_HI)
    let L_SD := decSub (decMul C_A W_LO) (decMul C_R W_HI)
    let L_SD := if L_SD.c ≤ 0 then decAdd L_SD C_M else L_SD
    match decQuantize 10 (-10) (decDiv L_SD C_M) with
    | none => none
    | some L_RAND =>
      let _L_SD := if L_RAND.c = 0 then decAdd L_SD C_M else L_SD
      some L_RAND

/-- `cobol_hash` from `randomizer_utils.py`: the exact fixed-point variant,
as a rational value; `none` models a raised `decimal.InvalidOperation`. -/
def cobol_hash (SSN : ℕ) : Option ℚ :=
  (cobol_hash_dec SSN).map Dec.val

/-- The `cobol_hash` pipeline with the dead zero-result remediation block
removed (verbatim the same computation, minus the reassignment of `L_SD`
after the final quantization).  Used to state that the remediation never
alters the returned value. -/
def cobol_hash_preRemediation (SSN : ℕ) : Option ℚ :=
  let L_SD : Dec := ⟨SSN, 0⟩
  let C_A : Dec := ⟨16807, 0⟩
  let C_M : Dec := ⟨2147483647, 0⟩
  let C_Q : Dec := ⟨127773, 0⟩
  let C_R : Dec := ⟨2836, 0⟩
  match decQuantize 10 0 (decDiv L_SD C_Q) with
  | none => none
  | some W_HI =>
    let W_LO := decSub L_SD (decMul C_Q W_HI)
    let L_SD := decSub (decMul C_A W_LO) (decMul C_R W_HI)
    let L_SD := if L_SD.c ≤ 0 then decAdd L_SD C_M else L_SD
    match decQuantize 10 (-10) (decDiv L_SD C_M) with
    | none => none
    | some L_RAND => some L_RAND.val

/-- The truncated quotient computed by the exact variant: the value of
`(L_SD / C_M).quantize(Decimal("1E-10"))` inside `cobol_hash`, which is
exactly the value the function returns. -/
def cobol_truncated_quotient (SSN : ℕ) : Option ℚ :=
  cobol_hash_preRemediation SSN

/-- `python_hash` from `randomizer_utils.py`: the approximate variant.  All
arithmetic up to the last line is exact integer arithmetic in Python; the
last line (`math.floor(L_SD / C_M * 1e10) / 1e10`) is evaluated in IEEE-754
double precision in the source and is modelled here in exact rational
arithmetic. -/
def python_hash (SSN : ℕ) : ℚ :=
  let C_Q : ℕ := 127773
  let C_A : ℤ := 16807
  let C_R : ℤ := 2836
  let C_M : ℤ := 2147483647
  let W_HI : ℕ := SSN / C_Q
  let W_LO : ℕ := SSN % C_Q
  let L_SD : ℤ := C_A * W_LO - C_R * W_HI
  let L_SD : ℤ := if L_SD ≤ 0 then L_SD + C_M else L_SD
  (⌊(L_SD : ℚ) / (C_M : ℚ) * 10 ^ 10⌋ : ℚ) / 10 ^ 10

/-- Truncation of a rational toward zero to an integer. -/
def ratTrunc (q : ℚ) : ℤ :=
  if 0 ≤ q then ⌊q⌋ else ⌈q⌉

/-- The integer reference algorithm, written from the specification's words:
`W_HI = identifier div 127773`, `W_LO = identifier mod 127773`,
`SD = 16807 * W_LO - 2836 * W_HI`, incremented by `2147483647` when
`SD ≤ 0`, and the result `SD / 2147483647` truncated toward zero to 10
decimal digits. -/
def cobol_hash_ref (n : ℕ) : ℚ :=
  let W_HI : ℕ := n / 127773
  let W_LO : ℕ := n % 127773
  let SD : ℤ := 16807 * W_LO - 2836 * W_HI
  let SD : ℤ := if SD ≤ 0 then SD + 2147483647 else SD
  (ratTrunc ((SD : ℚ) / 2147483647 * 10 ^ 10) : ℚ) / 10 ^ 10

/-- The Schrage recombination `A * W_LO - R * W_HI` computed by both kernel
variants. -/
def schrageSD (n : ℕ) : ℤ :=
  16807 * ((n % 127773 : ℕ) : ℤ) - 2836 * ((n / 127773 : ℕ) : ℤ)

/-- The recombination after the single wraparound correction (`+ M` when
nonpositive). -/
def schrageSDfix (n : ℕ) : ℤ :=
  if schrageSD n ≤ 0 then schrageSD n + 2147483647 else schrageSD n

/-- Little-endian decimal digits of `n` (empty for 0) by repeated division;
structurally recursive on `fuel`, correct whenever `n ≤ fuel`. -/
def digitsAux : ℕ → ℕ → List ℕ
  | 0, _ => []
  | fuel + 1, n => if n = 0 then [] else n % 10 :: digitsAux fuel (n / 10)

/-- The decimal string of `n` as Python's `str` produces it, as a list of
characters (most significant digit first; `"0"` for 0). -/
def toDecimalString (n : ℕ) : List Char :=
  if n = 0 then [Char.ofNat 48]
  else ((digitsAux n n).reverse.map fun d => Char.ofNat (48 + d))

/-- Python's `int` applied to a decimal digit string: fold over the
characters accumulating `10 * acc + digit`. -/
def parseDecimal (cs : List Char) : ℕ :=
  cs.foldl (fun acc c => 10 * acc + (c.toNat - 48)) 0

/-- The exact kernel applied to a decimal digit string, as in the batch
evaluator's `executor.map(cobol_hash, ssn_pool.astype(str))`:
`Decimal(s)` for a plain digit string is the decimal the string denotes,
and the pipeline then proceeds exactly as from the integer of that value. -/
def cobol_hash_str (cs : List Char) : Option ℚ :=
  cobol_hash (parseDecimal cs)

/-- `add_ms_to_seed` from `randomizer_utils.py` with an explicit offset:
`int(str(ssn + ms)[::-1])`.  The time-derived default offset (taken from
the wall clock's microseconds when `ms` is omitted) is inherently
non-deterministic and is not modelled; the claims concern the
explicit-offset form. -/
def add_ms_to_seed (ssn : ℕ) (ms : ℕ) : ℕ :=
  parseDecimal (toDecimalString (ssn + ms)).reverse

/-- Chunk slicing: the body of the generator loop
`for i in range(0, len(lst), n): yield lst[i : i + n]`, structurally
recursive on `fuel` (each step consumes at least one element when
`0 < n`, so `fuel = lst.length` always suffices). -/
def chunkAux {α : Type} : ℕ → List α → ℕ → List (List α)
  | 0, _, _ => []
  | _ + 1, [], _ => []
  | fuel + 1, x :: xs, n => (x :: xs).take n :: chunkAux fuel ((x :: xs).drop n) n

/-- `chunk_using_generators` from `randomizer_utils.py`: slices `lst` into
`lst[0:n], lst[n:2n], ...`; `none` models the `ValueError` that `range`
raises for step 0. -/
def chunk_using_generators {α : Type} (lst : List α) (n : ℕ) : Option (List (List α)) :=
  if n = 0 then none else some (chunkAux lst.length lst n)

/-- A sampler placeholder passed where `generate_outcomes` runs in
explicit-list mode and the sampling machinery is unused. -/
def constSampler : ℕ → ℕ → ℕ → List ℕ :=
  fun _ _ _ => []

/-- A minimal sampler respecting numpy's `[low, high)` contract, used to
instantiate sampled-mode statements at concrete inputs. -/
def oneSampler : ℕ → ℕ → ℕ → List ℕ :=
  fun lo _ _ => [lo]

/-- `generate_outcomes` from `randomizer_utils.py`.

* `sampler` abstracts the seeded `np.random.randint(low, high, size)`
  call: a deterministic function of `(low, high, size)` producing the
  sampled pool (numpy guarantees every element lies in `[low, high)`, and
  raises `ValueError` when `high ≤ low`; passing `None` bounds or size
  also raises).  The claims hold for every such function, so the
  generator's exact stream is irrelevant here.
* `ssn_pool.sort()` sorts the sample ascending, modelled by insertion
  sort.
* `process_type` is the raw string; the source tests `== "python"` and
  `== "cobol"` in sequence (a string matches at most one), and any other
  string leaves `ssn_outcomes` unbound (`NameError`), modelled as `none`.
* In the `"cobol"` branch the pool is converted to decimal strings
  (`astype(str)`) before the kernel is mapped over it, and a raised
  `decimal.InvalidOperation` in any worker aborts the whole batch
  (`none`).
* `executor.map` yields results in input order regardless of completion
  order, so the bounded concurrent map is modelled as an in-order map.
* The returned data frame is the ordered list of `(SSN, L_RAND)` rows;
  the optional `generate_rand_whole` flag only appends the derived column
  `L_RAND * 10^10` and is not modelled. -/
def generate_outcomes (sampler : ℕ → ℕ → ℕ → List ℕ)
    (input_list : Option (List ℕ)) (process_type : String)
    (low high size : Option ℕ) (all_values : Bool) :
    Option (List (ℕ × ℚ)) :=
  let ssn_pool? : Option (List ℕ) :=
    match input_list with
    | some l => some l
    | none =>
      if all_values = false then
        match low, high, size with
        | some lo, some hi, some sz =>
          if lo < hi then some (List.insertionSort (fun a b => a ≤ b) (sampler lo hi sz))
          else none
        | _, _, _ => none
      else
        match low, high with
        | some lo, some hi => some (List.range' lo (hi - lo))
        | _, _ => none
  match ssn_pool? with
  | none => none
  | some ssn_pool =>
    if process_type = "python" then
      some (ssn_pool.map fun s => (s, python_hash s))
    else if process_type = "cobol" then
      match ssn_pool.mapM fun s => cobol_hash_str (toDecimalString s) with
      | none => none
      | some ssn_outcomes => some (ssn_pool.zip ssn_outcomes)
    else none

/-- Descending comparison on rows by their `L_RAND` value: the key of
`sort_values(by="L_RAND", ascending=False)`. -/
def rowGE (a b : ℕ × ℚ) : Prop :=
  b.2 ≤ a.2

instance : DecidableRel rowGE :=
  fun a b => inferInstanceAs (Decidable (b.2 ≤ a.2))

instance : IsTotal (ℕ × ℚ) rowGE :=
  ⟨fun a b => le_total b.2 a.2⟩

instance : IsTrans (ℕ × ℚ) rowGE :=
  ⟨fun _ _ _ h1 h2 => le_trans h2 h1⟩

/-- `generate_all_L_RAND` from `randomizer_utils.py`: enumerate the domain
`[ssn_min, ssn_max)`, slice it into chunks, evaluate each chunk with the
exact variant (`generate_outcomes(chunk, "cobol")` over a process pool,
which preserves chunk order), concatenate, sort by `L_RAND` descending
(pandas' unstable quicksort is modelled by any permutation-sorting
algorithm; only the ordering of the key column is specified), and reindex
densely from 0 (`reset_index(drop=True)`).  Writing the gzip CSV artifact
is I/O and is not modelled; the returned value is the persisted dataset's
rows `(row_index, (SSN, L_RAND))`. -/
def generate_all_L_RAND (ssn_min ssn_max chunksize : ℕ) :
    Option (List (ℕ × (ℕ × ℚ))) :=
  let list_of_ssn := List.range' ssn_min (ssn_max - ssn_min)
  match chunk_using_generators list_of_ssn chunksize with
  | none => none
  | some list_of_list_of_ssn =>
    match list_of_list_of_ssn.mapM
        (fun c => generate_outcomes constSampler (some c) "cobol" none none none false) with
    | none => none
    | some ssn_outcomes =>
      some ((List.insertionSort rowGE ssn_outcomes.flatten).enum)

theorem log10Aux_spec : ∀ fuel n : ℕ, 1 ≤ n → n ≤ fuel →
    10 ^ log10Aux fuel n ≤ n ∧ n < 10 ^ (log10Aux fuel n + 1) := by
  intro fuel
  induction fuel with
  | zero => intro n h1 h2; omega
  | succ fuel ih =>
    intro n h1 h2
    rw [log10Aux]
    by_cases h : n < 10
    · simp only [h, if_true]
      norm_num
      omega
    · simp only [h, if_false]
      have hd1 : 1 ≤ n / 10 := by omega
      have hd2 : n / 10 ≤ fuel := by omega
      obtain ⟨l, u⟩ := ih (n / 10) hd1 hd2
      constructor
      · calc 10 ^ (log10Aux fuel (n / 10) + 1)
            = 10 ^ log10Aux fuel (n / 10) * 10 := by ring
          _ ≤ n / 10 * 10 := by exact Nat.mul_le_mul_right 10 l
          _ ≤ n := by omega
      · calc n < (n / 10 + 1) * 10 := by omega
          _ ≤ 10 ^ (log10Aux fuel (n / 10) + 1) * 10 := by
              exact Nat.mul_le_mul_right 10 (by omega)
          _ = 10 ^ (log10Aux fuel (n / 10) + 1 + 1) := by ring

theorem natLog10_spec (n : ℕ) (h : 1 ≤ n) :
    10 ^ natLog10 n ≤ n ∧ n < 10 ^ (natLog10 n + 1) :=
  log10Aux_spec n n h le_rfl

theorem numDigits_le (n k : ℕ) (h1 : 1 ≤ k) (h : n < 10 ^ k) : numDigits n ≤ k := by
  rcases Nat.eq_zero_or_pos n with rfl | hn
  · simpa [numDigits, natLog10, log10Aux] using h1
  · obtain ⟨l, _⟩ := natLog10_spec n hn
    have hlt : natLog10 n < k := by
      by_contra hc
      push_neg at hc
      exact absurd (le_trans (Nat.pow_le_pow_right (by norm_num) hc) l) (by omega)
    simp only [numDigits]
    omega

theorem lt_pow_numDigits (n : ℕ) : n < 10 ^ numDigits n := by
  rcases Nat.eq_zero_or_pos n with rfl | hn
  · norm_num
  · exact (natLog10_spec n hn).2

theorem decRound_small (d : Dec) (h : d.c.natAbs < 10 ^ 10) : decRound 10 d = d := by
  rw [decRound]
  simp [numDigits_le d.c.natAbs 10 (by norm_num) h]

theorem decMul_int (a b : ℤ) (h : (a * b).natAbs < 10 ^ 10) :
    decMul ⟨a, 0⟩ ⟨b, 0⟩ = ⟨a * b, 0⟩ := by
  rw [decMul]
  exact decRound_small ⟨a * b, 0 + 0⟩ h

theorem decAdd_int (a b : ℤ) (h : (a + b).natAbs < 10 ^ 10) :
    decAdd ⟨a, 0⟩ ⟨b, 0⟩ = ⟨a + b, 0⟩ := by
  rw [decAdd]
  norm_num
  exact decRound_small ⟨a + b, 0⟩ h

theorem decSub_int (a b : ℤ) (h : (a - b).natAbs < 10 ^ 10) :
    decSub ⟨a, 0⟩ ⟨b, 0⟩ = ⟨a - b, 0⟩ := by
  rw [decSub]
  rw [show (⟨a - b, 0⟩ : Dec) = ⟨a + -b, 0⟩ by rw [sub_eq_add_neg]]
  exact decAdd_int a (-b) (by rwa [← sub_eq_add_neg])

theorem upScale_spec : ∀ fuel A B : ℕ, B * 10 ^ 9 ≤ A * 10 ^ fuel →
    B * 10 ^ 9 ≤ A * 10 ^ upScale fuel A B ∧
      ∀ j < upScale fuel A B, A * 10 ^ j < B * 10 ^ 9 := by
  intro fuel
  induction fuel with
  | zero =>
    intro A B h
    rw [upScale]
    exact ⟨by simpa using h, by omega⟩
  | succ fuel ih =>
    intro A B h
    rw [upScale]
    by_cases hc : B * 10 ^ 9 ≤ A
    · simp only [hc, if_true]
      exact ⟨by simpa using hc, by omega⟩
    · simp only [hc, if_false]
      have h' : B * 10 ^ 9 ≤ A * 10 * 10 ^ fuel := by
        calc B * 10 ^ 9 ≤ A * 10 ^ (fuel + 1) := h
          _ = A * 10 * 10 ^ fuel := by ring
      obtain ⟨g1, g2⟩ := ih (A * 10) B h'
      constructor
      · calc B * 10 ^ 9 ≤ A * 10 * 10 ^ upScale fuel (A * 10) B := g1
          _ = A * 10 ^ (upScale fuel (A * 10) B + 1) := by ring
      · intro j hj
        cases j with
        | zero =>
          push_neg at hc
          simpa using hc
        | succ j' =>
          calc A * 10 ^ (j' + 1) = A * 10 * 10 ^ j' := by ring
            _ < B * 10 ^ 9 := g2 j' (by omega)

theorem natCast_tdiv (a b : ℕ) : ((a : ℤ)).tdiv (b : ℤ) = ((a / b : ℕ) : ℤ) :=
  rfl

/-- Unfolding of `decDiv` on positive natural operands in the upscaling
branch (`n < B * 10 ^ 9`). -/
theorem decDiv_pos (n B : ℕ) (hn : 0 < n) (h : n < B * 10 ^ 9) :
    decDiv ⟨(n : ℤ), 0⟩ ⟨(B : ℤ), 0⟩ =
      ⟨((n * 10 ^ upScale (numDigits B + 10) n B / B : ℕ) : ℤ),
        -(upScale (numDigits B + 10) n B : ℤ)⟩ := by
  have hn' : ¬ ((n : ℤ) = 0) := by exact_mod_cast hn.ne'
  have hsgn : (0 : ℤ) ≤ (n : ℤ) * (B : ℤ) := by positivity
  have hup : ¬ B * 10 ^ 9 ≤ n := by omega
  simp [decDiv, hn', hsgn, hup]
  exact fun hc => absurd hc (by omega)

theorem quantizeCoeff_negExp (Q k : ℕ) (t : ℤ) (ht : t ≤ 0) (hk : (-t).toNat ≤ k) :
    quantizeCoeff t ⟨(Q : ℤ), -(k : ℤ)⟩ = ((Q / 10 ^ (k - (-t).toNat) : ℕ) : ℤ) := by
  simp only [quantizeCoeff]
  by_cases hcase : t ≤ -(k : ℤ)
  · rw [if_pos hcase]
    rw [show (-(k : ℤ) - t).toNat = 0 by omega, show k - (-t).toNat = 0 by omega]
    norm_num
  · rw [if_neg hcase]
    rw [show (t - -(k : ℤ)).toNat = k - (-t).toNat by omega]
    show ((Q : ℤ)).tdiv (((10 : ℕ) : ℤ) ^ (k - (-t).toNat)) = _
    rw [← Nat.cast_pow]
    exact natCast_tdiv Q _

theorem decQuantize_negExp (p Q k : ℕ) (t : ℤ) (ht : t ≤ 0) (hk : (-t).toNat ≤ k)
    (h : Q / 10 ^ (k - (-t).toNat) < 10 ^ p) :
    decQuantize p t ⟨(Q : ℤ), -(k : ℤ)⟩ =
      some ⟨((Q / 10 ^ (k - (-t).toNat) : ℕ) : ℤ), t⟩ := by
  rw [decQuantize, quantizeCoeff_negExp Q k t ht hk,
    if_pos (by rw [Int.natAbs_ofNat]; exact h)]

/-- Dividing a natural `n` by a positive natural `B` in context precision 10
and quantizing the quotient to exponent `0` with `ROUND_DOWN` yields exactly
the integer quotient `n / B`, whenever `n < B * 10 ^ 9`. -/
theorem decQuantize_decDiv_floor (n B : ℕ) (hB : 0 < B) (h : n < B * 10 ^ 9) :
    decQuantize 10 0 (decDiv ⟨(n : ℤ), 0⟩ ⟨(B : ℤ), 0⟩) = some ⟨((n / B : ℕ) : ℤ), 0⟩ := by
  have hdiv9 : n / B < 10 ^ 9 := (Nat.div_lt_iff_lt_mul hB).mpr (by omega)
  rcases Nat.eq_zero_or_pos n with rfl | hn
  · simp [decDiv, decQuantize, quantizeCoeff]
  · rw [decDiv_pos n B hn h]
    set k := upScale (numDigits B + 10) n B
    have hcollapse : n * 10 ^ k / B / 10 ^ (k - (-(0 : ℤ)).toNat) = n / B := by
      rw [show k - (-(0 : ℤ)).toNat = k by omega]
      rw [Nat.div_div_eq_div_mul, mul_comm B, ← Nat.div_div_eq_div_mul,
        Nat.mul_div_cancel n (Nat.pos_pow_of_pos k (by norm_num))]
    rw [decQuantize_negExp 10 (n * 10 ^ k / B) k 0 le_rfl (by omega) (by rw [hcollapse]; omega)]
    rw [hcollapse]

/-- Dividing a positive natural `z` by a larger natural `B` in context
precision 10 and quantizing the quotient to exponent `-10` with `ROUND_DOWN`
yields the coefficient `z * 10 ^ 10 / B` at exponent `-10`. -/
theorem decQuantize_decDiv_frac (z B : ℕ) (hz : 0 < z) (hzB : z < B) :
    decQuantize 10 (-10) (decDiv ⟨(z : ℤ), 0⟩ ⟨(B : ℤ), 0⟩) =
      some ⟨((z * 10 ^ 10 / B : ℕ) : ℤ), -10⟩ := by
  have hB : 0 < B := lt_trans hz hzB
  have h : z < B * 10 ^ 9 := by
    calc z < B := hzB
      _ ≤ B * 10 ^ 9 := Nat.le_mul_of_pos_right B (by norm_num)
  rw [decDiv_pos z B hz h]
  have hfuel : B * 10 ^ 9 ≤ z * 10 ^ (numDigits B + 10) := by
    have h1 : B < 10 ^ numDigits B := lt_pow_numDigits B
    calc B * 10 ^ 9 ≤ 10 ^ numDigits B * 10 ^ 9 := Nat.mul_le_mul_right _ (le_of_lt h1)
      _ ≤ 10 ^ (numDigits B + 10) := by rw [pow_add]; exact Nat.mul_le_mul_left _ (by norm_num)
      _ ≤ z * 10 ^ (numDigits B + 10) := Nat.le_mul_of_pos_left _ hz
  obtain ⟨g1, g2⟩ := upScale_spec (numDigits B + 10) z B hfuel
  have hk10 : 10 ≤ upScale (numDigits B + 10) z B := by
    by_contra hc
    push_neg at hc
    have h2 : z * 10 ^ upScale (numDigits B + 10) z B ≤ z * 10 ^ 9 :=
      Nat.mul_le_mul_left z (Nat.pow_le_pow_right (by norm_num) (by omega))
    have h3 : B * 10 ^ 9 ≤ z * 10 ^ 9 := le_trans g1 h2
    have h4 : B ≤ z := Nat.le_of_mul_le_mul_right h3 (by norm_num)
    omega
  obtain ⟨j, hj⟩ : ∃ j, upScale (numDigits B + 10) z B = 10 + j :=
    ⟨upScale (numDigits B + 10) z B - 10, by omega⟩
  rw [hj]
  have hcollapse : z * 10 ^ (10 + j) / B / 10 ^ (10 + j - (-(-10 : ℤ)).toNat) =
      z * 10 ^ 10 / B := by
    rw [show 10 + j - (-(-10 : ℤ)).toNat = j by omega]
    rw [Nat.div_div_eq_div_mul, mul_comm B, ← Nat.div_div_eq_div_mul]
    congr 1
    rw [pow_add, ← mul_assoc, Nat.mul_div_cancel _ (Nat.pos_pow_of_pos j (by norm_num))]
  have hbound : z * 10 ^ 10 / B < 10 ^ 10 := by
    refine (Nat.div_lt_iff_lt_mul hB).mpr ?_
    calc z * 10 ^ 10 < B * 10 ^ 10 := by
          exact (Nat.mul_lt_mul_right (by norm_num)).mpr hzB
      _ = 10 ^ 10 * B := mul_comm _ _
  rw [decQuantize_negExp 10 (z * 10 ^ (10 + j) / B) (10 + j) (-10) (by omega) (by omega)
    (by rw [hcollapse]; exact hbound)]
  rw [hcollapse]

theorem schrageSD_bounds (n : ℕ) (h : n < 10 ^ 9) :
    -2147483647 < schrageSD n ∧ schrageSD n < 2147483647 := by
  simp only [schrageSD]
  omega

theorem schrageSD_ne_zero (n : ℕ) (h1 : 1 ≤ n) (h2 : n < 10 ^ 9) : schrageSD n ≠ 0 := by
  simp only [schrageSD]
  intro hz
  have hzn : 16807 * (n % 127773) = 2836 * (n / 127773) := by omega
  have hdvd : 2836 ∣ 16807 * (n % 127773) := ⟨n / 127773, by omega⟩
  have hcop : Nat.Coprime 2836 16807 := by norm_num
  have hdvd2 : 2836 ∣ n % 127773 := hcop.dvd_of_dvd_mul_left hdvd
  omega

theorem schrageSDfix_bounds (n : ℕ) (h1 : 1 ≤ n) (h2 : n < 10 ^ 9) :
    1 ≤ schrageSDfix n ∧ schrageSDfix n < 2147483647 := by
  obtain ⟨hb1, hb2⟩ := schrageSD_bounds n h2
  have hne := schrageSD_ne_zero n h1 h2
  rw [schrageSDfix]
  by_cases hc : schrageSD n ≤ 0
  · rw [if_pos hc]; omega
  · rw [if_neg hc]; omega

/-- Master evaluation: on the supported domain, the exact pipeline succeeds
and returns the coefficient `SD * 10 ^ 10 / M` at exponent `-10`. -/
theorem cobol_hash_dec_eq (n : ℕ) (h1 : 1 ≤ n) (h2 : n < 10 ^ 9) :
    cobol_hash_dec n =
      some ⟨(((schrageSDfix n).toNat * 10 ^ 10 / 2147483647 : ℕ) : ℤ), -10⟩ := by
  obtain ⟨hsd1, hsd2⟩ := schrageSD_bounds n h2
  have hne := schrageSD_ne_zero n h1 h2
  have hWHI : decQuantize 10 0 (decDiv ⟨(n : ℤ), 0⟩ ⟨(127773 : ℤ), 0⟩) =
      some ⟨((n / 127773 : ℕ) : ℤ), 0⟩ := by
    have h := decQuantize_decDiv_floor n 127773 (by norm_num) (by omega)
    rwa [show ((127773 : ℕ) : ℤ) = (127773 : ℤ) from by norm_num] at h
  have hMulQ : decMul ⟨(127773 : ℤ), 0⟩ ⟨((n / 127773 : ℕ) : ℤ), 0⟩ =
      ⟨(127773 : ℤ) * ((n / 127773 : ℕ) : ℤ), 0⟩ := by
    apply decMul_int
    rw [show (127773 : ℤ) * ((n / 127773 : ℕ) : ℤ) = ((127773 * (n / 127773) : ℕ) : ℤ)
      from by push_cast; ring, Int.natAbs_ofNat]
    omega
  have hWLO : decSub ⟨(n : ℤ), 0⟩ ⟨(127773 : ℤ) * ((n / 127773 : ℕ) : ℤ), 0⟩ =
      ⟨((n % 127773 : ℕ) : ℤ), 0⟩ := by
    have heq : (n : ℤ) - (127773 : ℤ) * ((n / 127773 : ℕ) : ℤ) = ((n % 127773 : ℕ) : ℤ) := by
      push_cast
      omega
    rw [decSub_int _ _ (by rw [heq, Int.natAbs_ofNat]; omega), heq]
  have hMulA : decMul ⟨(16807 : ℤ), 0⟩ ⟨((n % 127773 : ℕ) : ℤ), 0⟩ =
      ⟨(16807 : ℤ) * ((n % 127773 : ℕ) : ℤ), 0⟩ := by
    apply decMul_int
    rw [show (16807 : ℤ) * ((n % 127773 : ℕ) : ℤ) = ((16807 * (n % 127773) : ℕ) : ℤ)
      from by push_cast; ring, Int.natAbs_ofNat]
    have hm : n % 127773 < 127773 := Nat.mod_lt n (by norm_num)
    omega
  have hMulR : decMul ⟨(2836 : ℤ), 0⟩ ⟨((n / 127773 : ℕ) : ℤ), 0⟩ =
      ⟨(2836 : ℤ) * ((n / 127773 : ℕ) : ℤ), 0⟩ := by
    apply decMul_int
    rw [show (2836 : ℤ) * ((n / 127773 : ℕ) : ℤ) = ((2836 * (n / 127773) : ℕ) : ℤ)
      from by push_cast; ring, Int.natAbs_ofNat]
    omega
  have hSD : decSub ⟨(16807 : ℤ) * ((n % 127773 : ℕ) : ℤ), 0⟩
      ⟨(2836 : ℤ) * ((n / 127773 : ℕ) : ℤ), 0⟩ = ⟨schrageSD n, 0⟩ := by
    have hb : ((16807 : ℤ) * ((n % 127773 : ℕ) : ℤ)
        - (2836 : ℤ) * ((n / 127773 : ℕ) : ℤ)).natAbs < 10 ^ 10 := by
      rw [show (16807 : ℤ) * ((n % 127773 : ℕ) : ℤ) - (2836 : ℤ) * ((n / 127773 : ℕ) : ℤ)
        = schrageSD n from rfl]
      omega
    rw [decSub_int _ _ hb]
    rfl
  by_cases hc : schrageSD n ≤ 0
  · have hAdd : decAdd ⟨schrageSD n, 0⟩ ⟨(2147483647 : ℤ), 0⟩ =
        ⟨schrageSD n + 2147483647, 0⟩ := decAdd_int _ _ (by omega)
    have hztn : (((schrageSD n + 2147483647).toNat : ℕ) : ℤ) = schrageSD n + 2147483647 :=
      Int.toNat_of_nonneg (by omega)
    have hFin := decQuantize_decDiv_frac (schrageSD n + 2147483647).toNat 2147483647
      (by omega) (by omega)
    rw [hztn, show ((2147483647 : ℕ) : ℤ) = (2147483647 : ℤ) from by norm_num] at hFin
    simp only [cobol_hash_dec, hWHI, hMulQ, hWLO, hMulA, hMulR, hSD, hc, if_true, hAdd, hFin]
    rw [schrageSDfix, if_pos hc]
  · have hztn : (((schrageSD n).toNat : ℕ) : ℤ) = schrageSD n :=
      Int.toNat_of_nonneg (by omega)
    have hFin := decQuantize_decDiv_frac (schrageSD n).toNat 2147483647
      (by omega) (by omega)
    rw [hztn, show ((2147483647 : ℕ) : ℤ) = (2147483647 : ℤ) from by norm_num] at hFin
    simp only [cobol_hash_dec, hWHI, hMulQ, hWLO, hMulA, hMulR, hSD, hc, if_false, hFin]
    rw [schrageSDfix, if_neg hc]

theorem Dec.val_nonpos_iff (d : Dec) : d.val ≤ 0 ↔ d.c ≤ 0 := by
  rw [Dec.val]
  have hp : (0 : ℚ) < 10 ^ d.e := by positivity
  constructor
  · intro h
    rcases mul_nonpos_iff.mp h with ⟨_, h2⟩ | ⟨h1, _⟩
    · exact absurd h2 (not_le.mpr hp)
    · exact_mod_cast h1
  · intro h
    exact mul_nonpos_iff.mpr (Or.inr ⟨by exact_mod_cast h, le_of_lt hp⟩)

theorem Dec.val_eq_zero_iff (d : Dec) : d.val = 0 ↔ d.c = 0 := by
  rw [Dec.val, mul_eq_zero]
  have hp : (10 : ℚ) ^ d.e ≠ 0 := by positivity
  simp [hp, Int.cast_eq_zero]

theorem val_coeff_neg10 (K : ℤ) : Dec.val ⟨K, -10⟩ = (K : ℚ) / 10 ^ 10 := by
  rw [Dec.val]
  rw [show ((10 : ℚ) ^ (-10 : ℤ)) = ((10 : ℚ) ^ (10 : ℕ))⁻¹ from by
    rw [zpow_neg]
    norm_num]
  rw [div_eq_mul_inv]

theorem cobol_hash_ref_eq (n : ℕ) (h1 : 1 ≤ n) (h2 : n < 10 ^ 9) :
    cobol_hash_ref n =
      (((schrageSDfix n).toNat * 10 ^ 10 / 2147483647 : ℕ) : ℚ) / 10 ^ 10 := by
  obtain ⟨hf1, hf2⟩ := schrageSDfix_bounds n h1 h2
  show (ratTrunc (((if schrageSD n ≤ 0 then schrageSD n + 2147483647 else schrageSD n : ℤ) : ℚ)
      / 2147483647 * 10 ^ 10) : ℚ) / 10 ^ 10 = _
  rw [show (if schrageSD n ≤ 0 then schrageSD n + 2147483647 else schrageSD n) = schrageSDfix n
    from rfl]
  have hA : (((schrageSDfix n).toNat : ℕ) : ℚ) = ((schrageSDfix n : ℚ)) := by
    have h := Int.toNat_of_nonneg (by omega : (0 : ℤ) ≤ schrageSDfix n)
    exact_mod_cast congrArg (fun z : ℤ => (z : ℚ)) h
  have harg : ((schrageSDfix n : ℚ)) / 2147483647 * 10 ^ 10 =
      (((schrageSDfix n).toNat * 10 ^ 10 : ℕ) : ℚ) / ((2147483647 : ℕ) : ℚ) := by
    rw [← hA]
    push_cast
    ring
  rw [ratTrunc, if_pos (by positivity), harg, Rat.floor_natCast_div_natCast]
  rw [show ((((schrageSDfix n).toNat * 10 ^ 10 : ℕ) : ℤ)) / (((2147483647 : ℕ) : ℤ))
    = (((schrageSDfix n).toNat * 10 ^ 10 / 2147483647 : ℕ) : ℤ) from by exact_mod_cast rfl]
  rw [Int.cast_natCast]

theorem cobol_hash_eq_ref (n : ℕ) (h1 : 1 ≤ n) (h2 : n < 10 ^ 9) :
    cobol_hash n = some (cobol_hash_ref n) := by
  rw [cobol_hash, cobol_hash_dec_eq n h1 h2, cobol_hash_ref_eq n h1 h2]
  show some (Dec.val ⟨(((schrageSDfix n).toNat * 10 ^ 10 / 2147483647 : ℕ) : ℤ), -10⟩) = _
  rw [val_coeff_neg10, Int.cast_natCast]

theorem python_hash_eq (n : ℕ) :
    python_hash n = (⌊((schrageSDfix n : ℚ)) / 2147483647 * 10 ^ 10⌋ : ℚ) / 10 ^ 10 :=
  rfl

theorem python_hash_bounds (n : ℕ) (h1 : 1 ≤ n) (h2 : n < 10 ^ 9) :
    0 ≤ python_hash n ∧ python_hash n < 1 := by
  obtain ⟨hf1, hf2⟩ := schrageSDfix_bounds n h1 h2
  rw [python_hash_eq]
  have hnn : (0 : ℚ) ≤ ((schrageSDfix n : ℚ)) / 2147483647 * 10 ^ 10 := by positivity
  constructor
  · have : (0 : ℤ) ≤ ⌊((schrageSDfix n : ℚ)) / 2147483647 * 10 ^ 10⌋ :=
      Int.floor_nonneg.mpr hnn
    positivity
  · rw [div_lt_one (by positivity)]
    have harg : ((schrageSDfix n : ℚ)) / 2147483647 * 10 ^ 10 < 10 ^ 10 := by
      have h3 : ((schrageSDfix n : ℚ)) / 2147483647 < 1 := by
        rw [div_lt_one (by norm_num)]
        exact_mod_cast hf2
      calc ((schrageSDfix n : ℚ)) / 2147483647 * 10 ^ 10 < 1 * 10 ^ 10 :=
            mul_lt_mul_of_pos_right h3 (by norm_num)
        _ = 10 ^ 10 := one_mul _
    have hfl : ⌊((schrageSDfix n : ℚ)) / 2147483647 * 10 ^ 10⌋ < (10 : ℤ) ^ 10 := by
      rw [Int.floor_lt]
      exact_mod_cast harg
    exact_mod_cast hfl

theorem cobol_hash_value_bounds (n : ℕ) (h1 : 1 ≤ n) (h2 : n < 10 ^ 9) :
    ∃ q, cobol_hash n = some q ∧ 0 ≤ q ∧ q < 1 := by
  obtain ⟨hf1, hf2⟩ := schrageSDfix_bounds n h1 h2
  refine ⟨cobol_hash_ref n, cobol_hash_eq_ref n h1 h2, ?_, ?_⟩
  · rw [cobol_hash_ref_eq n h1 h2]
    positivity
  · rw [cobol_hash_ref_eq n h1 h2]
    rw [div_lt_one (by positivity)]
    have hK : (schrageSDfix n).toNat * 10 ^ 10 / 2147483647 < 10 ^ 10 := by
      refine (Nat.div_lt_iff_lt_mul (by norm_num)).mpr ?_
      have : (schrageSDfix n).toNat < 2147483647 := by omega
      calc (schrageSDfix n).toNat * 10 ^ 10 < 2147483647 * 10 ^ 10 :=
            (Nat.mul_lt_mul_right (by norm_num)).mpr this
        _ = 10 ^ 10 * 2147483647 := mul_comm _ _
    exact_mod_cast hK

/-- C1 (amended): for every identifier in `[1, 10^9)` the exact variant,
computed in 10-significant-digit decimal arithmetic with round-toward-zero
at every quantized step, returns exactly the value of the integer reference
algorithm (`W_HI = n div 127773`, `W_LO = n mod 127773`,
`SD = 16807*W_LO - 2836*W_HI`, `+M` when `SD ≤ 0`, result `SD/M` truncated
toward zero to 10 decimal digits).  The claimed domain `[0, 10^9)` fails at
identifier 0, where the exact variant raises instead of returning the
reference value 1. -/
theorem cobol_hash_refines_reference (n : ℕ) (h1 : 1 ≤ n) (h2 : n < 10 ^ 9) :
    cobol_hash n = some (cobol_hash_ref n) :=
  cobol_hash_eq_ref n h1 h2

theorem cobol_hash_refines_reference_witness :
    1 ≤ 123456789 ∧ 123456789 < 10 ^ 9 ∧
      cobol_hash 123456789 = some (cobol_hash_ref 123456789) :=
  ⟨by norm_num, by norm_num,
    cobol_hash_refines_reference 123456789 (by norm_num) (by norm_num)⟩

/-- C1 counterexample: at identifier 0 - inside the claimed domain
`[0, 10^9)` - the exact variant signals `InvalidOperation` (the quantized
coefficient `10^10` has 11 digits) and raises, returning no value, while
the integer reference algorithm returns 1. -/
theorem cobol_hash_zero_counterexample : cobol_hash 0 = none ∧ cobol_hash_ref 0 = 1 := by
  constructor
  · rw [cobol_hash, show cobol_hash_dec 0 = none from by decide]
    rfl
  · norm_num [cobol_hash_ref, ratTrunc]

/-- C2 (confirmed): for the input identifier 123456789 the exact variant
returns exactly `0.2184182969` (ten decimal digits, truncated). -/
theorem cobol_hash_value_at_123456789 :
    cobol_hash 123456789 = some (2184182969 / 10 ^ 10) := by
  rw [cobol_hash, show cobol_hash_dec 123456789 = some ⟨2184182969, -10⟩ from by decide]
  show some (Dec.val ⟨2184182969, -10⟩) = _
  rw [val_coeff_neg10]
  norm_num

/-- C3 (amended): for every identifier in `[1, 10^9)`, the Schrage
recombination `A*W_LO - R*W_HI` lies strictly between `-M` and `M` (so the
single wraparound correction suffices), the exact variant terminates
without raising and returns a value in `[0, 1)`, and the approximate
variant returns a value in `[0, 1)`.  The claimed domain "any non-negative
integer of up to 9 digits" fails at identifier 0, where the exact variant
raises and the approximate variant returns exactly 1. -/
theorem hash_kernels_safe (n : ℕ) (h1 : 1 ≤ n) (h2 : n < 10 ^ 9) :
    (-2147483647 < schrageSD n ∧ schrageSD n < 2147483647) ∧
      (∃ q, cobol_hash n = some q ∧ 0 ≤ q ∧ q < 1) ∧
      0 ≤ python_hash n ∧ python_hash n < 1 :=
  ⟨schrageSD_bounds n h2, cobol_hash_value_bounds n h1 h2, python_hash_bounds n h1 h2⟩

theorem hash_kernels_safe_witness :
    1 ≤ 999951498 ∧ 999951498 < 10 ^ 9 ∧
      ((-2147483647 < schrageSD 999951498 ∧ schrageSD 999951498 < 2147483647) ∧
        (∃ q, cobol_hash 999951498 = some q ∧ 0 ≤ q ∧ q < 1) ∧
        0 ≤ python_hash 999951498 ∧ python_hash 999951498 < 1) :=
  ⟨by norm_num, by norm_num, hash_kernels_safe 999951498 (by norm_num) (by norm_num)⟩

/-- C3 counterexample: identifier 0 is a non-negative integer of at most 9
digits, yet the exact variant raises (returns no value) and the approximate
variant returns exactly 1, which is not strictly less than 1.  (At 0 the
final line of the approximate variant is exact even in IEEE-754 binary
arithmetic: `2147483647 / 2147483647 * 1e10` and the division by `1e10` are
all exactly representable.) -/
theorem hash_kernels_zero_counterexample : cobol_hash 0 = none ∧ python_hash 0 = 1 := by
  constructor
  · rw [cobol_hash, show cobol_hash_dec 0 = none from by decide]
    rfl
  · norm_num [python_hash]

/-- C4 (confirmed): the zero-result remediation inside the exact variant
(adding `M` to `SD` when the quantized `L_RAND` equals 0) happens after the
quantization and never alters the returned value: `cobol_hash` returns
exactly what the remediation-free pipeline returns, and it returns 0
precisely for those identifiers whose truncated quotient is 0. -/
theorem cobol_hash_remediation_never_alters_result (n : ℕ) :
    cobol_hash n = cobol_hash_preRemediation n ∧
      (cobol_hash n = some 0 ↔ cobol_truncated_quotient n = some 0) := by
  have h : cobol_hash n = cobol_hash_preRemediation n := by
    rw [cobol_hash, cobol_hash_dec, cobol_hash_preRemediation]
    simp only []
    split
    · rfl
    · split
      · rfl
      · rfl
  exact ⟨h, by rw [h, cobol_truncated_quotient]⟩

theorem digitsAux_eq_digits : ∀ fuel n : ℕ, n ≤ fuel → digitsAux fuel n = Nat.digits 10 n := by
  intro fuel
  induction fuel with
  | zero =>
    intro n h
    rw [show n = 0 by omega, Nat.digits_zero]
    rfl
  | succ fuel ih =>
    intro n h
    rw [digitsAux]
    by_cases h0 : n = 0
    · rw [if_pos h0, h0, Nat.digits_zero]
    · rw [if_neg h0, Nat.digits_def' (by norm_num : 1 < 10) (by omega : 0 < n),
        ih (n / 10) (by omega)]

theorem digitChar_toNat (d : ℕ) (h : d < 10) : (Char.ofNat (48 + d)).toNat - 48 = d := by
  interval_cases d <;> decide

theorem parseDecimal_digits (ds : List ℕ) (hds : ∀ d ∈ ds, d < 10) (acc : ℕ) :
    List.foldl (fun acc c => 10 * acc + (c.toNat - 48)) acc
        (ds.map fun d => Char.ofNat (48 + d)) =
      acc * 10 ^ ds.length + Nat.ofDigits 10 ds.reverse := by
  induction ds generalizing acc with
  | nil => simp
  | cons d ds ih =>
    simp only [List.map_cons, List.foldl_cons]
    rw [digitChar_toNat d (hds d (by simp))]
    rw [ih (fun x hx => hds x (by simp [hx]))]
    rw [List.reverse_cons, Nat.ofDigits_append]
    simp only [List.length_cons, List.length_reverse, Nat.ofDigits_singleton]
    ring

theorem parseDecimal_toDecimalString (n : ℕ) : parseDecimal (toDecimalString n) = n := by
  rw [toDecimalString, parseDecimal]
  by_cases h : n = 0
  · subst h
    rfl
  · rw [if_neg h, digitsAux_eq_digits n n le_rfl]
    rw [parseDecimal_digits (Nat.digits 10 n).reverse
      (fun d hd => Nat.digits_lt_base (by norm_num) (List.mem_reverse.mp hd)) 0]
    simp [Nat.ofDigits_digits]

/-- C10 (confirmed): the exact variant is invariant to the representation
of its argument: applying it to the decimal string of `n` (as the batch
evaluator does after converting the pool with `astype(str)`) equals
applying it to the integer `n` itself. -/
theorem cobol_hash_string_invariance (n : ℕ) :
    cobol_hash_str (toDecimalString n) = cobol_hash n := by
  rw [cobol_hash_str, parseDecimal_toDecimalString]

theorem parseDecimal_reverse_toDecimalString (m : ℕ) :
    parseDecimal (toDecimalString m).reverse =
      Nat.ofDigits 10 ((Nat.digits 10 m).reverse) := by
  rw [toDecimalString]
  by_cases h : m = 0
  · subst h
    rw [Nat.digits_zero]
    decide
  · rw [if_neg h, digitsAux_eq_digits m m le_rfl]
    rw [show ((Nat.digits 10 m).reverse.map fun d => Char.ofNat (48 + d)).reverse
        = (Nat.digits 10 m).map fun d => Char.ofNat (48 + d) from by
      rw [← List.map_reverse, List.reverse_reverse]]
    rw [parseDecimal,
      parseDecimal_digits _ (fun d hd => Nat.digits_lt_base (by norm_num) hd) 0]
    simp

/-- C9 (confirmed): with an explicit offset, `add_ms_to_seed` returns the
integer obtained by adding the offset to the identifier, reversing the
resulting decimal digit string and reparsing it; as a pure function of
`(ssn, ms)` it is deterministic: equal inputs give equal outputs. -/
theorem add_ms_to_seed_reverses_digits (ssn ms : ℕ) :
    add_ms_to_seed ssn ms = Nat.ofDigits 10 ((Nat.digits 10 (ssn + ms)).reverse) := by
  rw [add_ms_to_seed, parseDecimal_reverse_toDecimalString]

theorem cobol_hash_str_toDecimalString (n : ℕ) :
    cobol_hash_str (toDecimalString n) = cobol_hash n := by
  rw [cobol_hash_str, parseDecimal_toDecimalString]

theorem chunkAux_flatten {α : Type} :
    ∀ (fuel : ℕ) (l : List α) (n : ℕ), 0 < n → l.length ≤ fuel →
      (chunkAux fuel l n).flatten = l := by
  intro fuel
  induction fuel with
  | zero =>
    intro l n hn hl
    rw [show l = [] from by cases l with
      | nil => rfl
      | cons x xs => simp at hl]
    rfl
  | succ fuel ih =>
    intro l n hn hl
    cases l with
    | nil => rfl
    | cons x xs =>
      rw [chunkAux, List.flatten_cons,
        ih ((x :: xs).drop n) n hn
          (by simp only [List.length_drop, List.length_cons]; simp at hl; omega),
        List.take_append_drop]

theorem mapM_eq_map {α β : Type} (f : α → Option β) (g : α → β) :
    ∀ l : List α, (∀ x ∈ l, f x = some (g x)) → l.mapM f = some (l.map g) := by
  intro l
  induction l with
  | nil => intro _; rfl
  | cons x xs ih =>
    intro h
    rw [List.mapM_cons, h x (by simp), ih (fun y hy => h y (by simp [hy]))]
    rfl

theorem cobol_mapM (l : List ℕ) (hl : ∀ s ∈ l, 1 ≤ s ∧ s < 10 ^ 9) :
    (l.mapM fun s => cobol_hash_str (toDecimalString s)) =
      some (l.map fun s => cobol_hash_ref s) :=
  mapM_eq_map _ _ l fun s hs => by
    rw [cobol_hash_str_toDecimalString, cobol_hash_eq_ref s (hl s hs).1 (hl s hs).2]

theorem generate_outcomes_python_explicit (sampler : ℕ → ℕ → ℕ → List ℕ)
    (l : List ℕ) (olo ohi osz : Option ℕ) (av : Bool) :
    generate_outcomes sampler (some l) "python" olo ohi osz av =
      some (l.map fun s => (s, python_hash s)) := by
  simp [generate_outcomes]

theorem generate_outcomes_cobol_explicit (sampler : ℕ → ℕ → ℕ → List ℕ)
    (l : List ℕ) (olo ohi osz : Option ℕ) (av : Bool)
    (hl : ∀ s ∈ l, 1 ≤ s ∧ s < 10 ^ 9) :
    generate_outcomes sampler (some l) "cobol" olo ohi osz av =
      some (l.map fun s => (s, cobol_hash_ref s)) := by
  simp only [generate_outcomes]
  rw [if_pos trivial, cobol_mapM l hl]
  show some (l.zip (l.map fun s => cobol_hash_ref s)) = _
  rw [← List.map_prod_left_eq_zip]

theorem generate_outcomes_sampled_pool (sampler : ℕ → ℕ → ℕ → List ℕ)
    (pt : String) (lo hi sz : ℕ) (hlt : lo < hi) :
    generate_outcomes sampler none pt (some lo) (some hi) (some sz) false =
      generate_outcomes sampler
        (some (List.insertionSort (fun a b => a ≤ b) (sampler lo hi sz)))
        pt none none none false := by
  simp [generate_outcomes, hlt]

theorem generate_outcomes_exhaustive_pool (sampler : ℕ → ℕ → ℕ → List ℕ)
    (pt : String) (lo hi : ℕ) (osz : Option ℕ) :
    generate_outcomes sampler none pt (some lo) (some hi) osz true =
      generate_outcomes sampler (some (List.range' lo (hi - lo))) pt none none none false := by
  simp [generate_outcomes]

/-- C7 (amended): in each of the three construction modes (explicit
caller-supplied list used verbatim, seeded sample, exhaustive range) and
for both variant selectors, the batch evaluator returns the list whose
`i`-th row pairs the `i`-th pool identifier with that identifier's kernel
value, in exactly pool order, one row per pool element - provided every
pool identifier lies in `[1, 10^9)` when the exact variant is selected
(outside that range the exact kernel raises and the batch aborts with no
result).  The sampled mode is stated for an arbitrary sampler respecting
numpy's `[low, high)` range contract. -/
theorem generate_outcomes_pairs_pool_in_order (sampler : ℕ → ℕ → ℕ → List ℕ)
    (l : List ℕ) (lo hi sz : ℕ) (olo ohi osz : Option ℕ) (av : Bool)
    (hl : ∀ s ∈ l, 1 ≤ s ∧ s < 10 ^ 9)
    (hsamp : ∀ x ∈ sampler lo hi sz, lo ≤ x ∧ x < hi)
    (hlo : 1 ≤ lo) (hhi : hi ≤ 10 ^ 9) (hlt : lo < hi) :
    (generate_outcomes sampler (some l) "python" olo ohi osz av =
        some (l.map fun s => (s, python_hash s))) ∧
      (generate_outcomes sampler (some l) "cobol" olo ohi osz av =
        some (l.map fun s => (s, cobol_hash_ref s))) ∧
      (generate_outcomes sampler none "python" (some lo) (some hi) (some sz) false =
        some ((List.insertionSort (fun a b => a ≤ b) (sampler lo hi sz)).map
          fun s => (s, python_hash s))) ∧
      (generate_outcomes sampler none "cobol" (some lo) (some hi) (some sz) false =
        some ((List.insertionSort (fun a b => a ≤ b) (sampler lo hi sz)).map
          fun s => (s, cobol_hash_ref s))) ∧
      (generate_outcomes sampler none "python" (some lo) (some hi) osz true =
        some ((List.range' lo (hi - lo)).map fun s => (s, python_hash s))) ∧
      (generate_outcomes sampler none "cobol" (some lo) (some hi) osz true =
        some ((List.range' lo (hi - lo)).map fun s => (s, cobol_hash_ref s))) := by
  have hsorted : ∀ s ∈ List.insertionSort (fun a b => a ≤ b) (sampler lo hi sz),
      1 ≤ s ∧ s < 10 ^ 9 := by
    intro s hs
    have hmem : s ∈ sampler lo hi sz := (List.mem_insertionSort (fun a b => a ≤ b)).mp hs
    have := hsamp s hmem
    omega
  have hrange : ∀ s ∈ List.range' lo (hi - lo), 1 ≤ s ∧ s < 10 ^ 9 := by
    intro s hs
    have := List.mem_range'_1.mp hs
    omega
  refine ⟨generate_outcomes_python_explicit sampler l olo ohi osz av,
    generate_outcomes_cobol_explicit sampler l olo ohi osz av hl, ?_, ?_, ?_, ?_⟩
  · rw [generate_outcomes_sampled_pool sampler "python" lo hi sz hlt]
    exact generate_outcomes_python_explicit sampler _ none none none false
  · rw [generate_outcomes_sampled_pool sampler "cobol" lo hi sz hlt]
    exact generate_outcomes_cobol_explicit sampler _ none none none false hsorted
  · rw [generate_outcomes_exhaustive_pool sampler "python" lo hi osz]
    exact generate_outcomes_python_explicit sampler _ none none none false
  · rw [generate_outcomes_exhaustive_pool sampler "cobol" lo hi osz]
    exact generate_outcomes_cobol_explicit sampler _ none none none false hrange

/-- C7 counterexample: the explicit pool `[0]` with the exact variant
yields no result at all (the worker raises and the batch aborts), so the
batch evaluator does not return a one-row result pairing 0 with a kernel
value. -/
theorem generate_outcomes_zero_pool_counterexample :
    generate_outcomes constSampler (some [0]) "cobol" none none none false = none := by
  decide

theorem generate_outcomes_pairs_pool_witness :
    (∀ s ∈ [123456789], 1 ≤ s ∧ s < 10 ^ 9) ∧
      (∀ x ∈ oneSampler 2 5 1, 2 ≤ x ∧ x < 5) ∧ 1 ≤ 2 ∧ 5 ≤ 10 ^ 9 ∧ 2 < 5 ∧
      ((generate_outcomes oneSampler (some [123456789]) "python" none none none false =
          some ([123456789].map fun s => (s, python_hash s))) ∧
        (generate_outcomes oneSampler (some [123456789]) "cobol" none none none false =
          some ([123456789].map fun s => (s, cobol_hash_ref s))) ∧
        (generate_outcomes oneSampler none "python" (some 2) (some 5) (some 1) false =
          some ((List.insertionSort (fun a b => a ≤ b) (oneSampler 2 5 1)).map
            fun s => (s, python_hash s))) ∧
        (generate_outcomes oneSampler none "cobol" (some 2) (some 5) (some 1) false =
          some ((List.insertionSort (fun a b => a ≤ b) (oneSampler 2 5 1)).map
            fun s => (s, cobol_hash_ref s))) ∧
        (generate_outcomes oneSampler none "python" (some 2) (some 5) (some 1) true =
          some ((List.range' 2 (5 - 2)).map fun s => (s, python_hash s))) ∧
        (generate_outcomes oneSampler none "cobol" (some 2) (some 5) (some 1) true =
          some ((List.range' 2 (5 - 2)).map fun s => (s, cobol_hash_ref s)))) :=
  ⟨by decide, by decide, by decide, by decide, by decide,
    generate_outcomes_pairs_pool_in_order oneSampler [123456789] 2 5 1 none none (some 1) false
      (by decide) (by decide) (by decide) (by decide) (by decide)⟩

/-- C8 (amended): for `high ≤ low` the sampled mode fails with a
validation error (numpy's `randint` raises `ValueError`) for every
variant selector, but the exhaustive mode does not fail: `np.arange(low,
high)` is empty and the evaluator silently returns an empty result. -/
theorem pool_validation_high_le_low (sampler : ℕ → ℕ → ℕ → List ℕ)
    (pt : String) (lo hi sz : ℕ) (h : hi ≤ lo) :
    generate_outcomes sampler none pt (some lo) (some hi) (some sz) false = none ∧
      generate_outcomes sampler none "cobol" (some lo) (some hi) (some sz) true = some [] ∧
      generate_outcomes sampler none "python" (some lo) (some hi) (some sz) true = some [] := by
  have hlt : ¬ lo < hi := by omega
  have hsub : hi - lo = 0 := by omega
  refine ⟨?_, ?_, ?_⟩
  · simp [generate_outcomes, hlt]
  · simp [generate_outcomes, hsub]
    rfl
  · simp [generate_outcomes, hsub]

/-- C8 counterexample: with `(low, high) = (5, 3)` the exhaustive mode
does not fail with a validation error: it silently returns an empty
result. -/
theorem exhaustive_mode_empty_counterexample :
    generate_outcomes constSampler none "cobol" (some 5) (some 3) none true = some [] := by
  decide

theorem pool_validation_witness :
    3 ≤ 5 ∧
      (generate_outcomes constSampler none "cobol" (some 5) (some 3) (some 2) false = none ∧
        generate_outcomes constSampler none "cobol" (some 5) (some 3) (some 2) true = some [] ∧
        generate_outcomes constSampler none "python" (some 5) (some 3) (some 2) true =
          some []) :=
  ⟨by decide, pool_validation_high_le_low constSampler "cobol" 5 3 2 (by decide)⟩

/-- C6 (amended): for every domain `[low, high)` with
`1 ≤ low < high ≤ 10^9` and every chunk length `n > 0`, the full-domain
pipeline produces a dataset with exactly `high - low` rows (the chunks
partition the domain with no overlap and no gap), whose `L_RAND` column is
non-increasing row over row, and whose row indices form the dense sequence
starting at 0.  For domains containing identifier 0 the pipeline raises
instead of producing a dataset. -/
theorem generate_all_L_RAND_invariants (lo hi n : ℕ)
    (h1 : 1 ≤ lo) (h2 : lo < hi) (h3 : hi ≤ 10 ^ 9) (hn : 0 < n) :
    ∃ rows, generate_all_L_RAND lo hi n = some rows ∧
      rows.length = hi - lo ∧
      List.Sorted (· ≥ ·) (rows.map fun r => r.2.2) ∧
      rows.map Prod.fst = List.range (hi - lo) := by
  have hchunks : chunk_using_generators (List.range' lo (hi - lo)) n =
      some (chunkAux (List.range' lo (hi - lo)).length (List.range' lo (hi - lo)) n) := by
    rw [chunk_using_generators, if_neg (by omega)]
  have hflat : (chunkAux (List.range' lo (hi - lo)).length (List.range' lo (hi - lo)) n).flatten
      = List.range' lo (hi - lo) :=
    chunkAux_flatten _ _ n hn le_rfl
  have hmemdom : ∀ s ∈ List.range' lo (hi - lo), 1 ≤ s ∧ s < 10 ^ 9 := by
    intro s hs
    have := List.mem_range'_1.mp hs
    omega
  have hchunkmem : ∀ c ∈ chunkAux (List.range' lo (hi - lo)).length
      (List.range' lo (hi - lo)) n, ∀ s ∈ c, 1 ≤ s ∧ s < 10 ^ 9 := by
    intro c hc s hs
    exact hmemdom s (by rw [← hflat]; exact List.mem_flatten.mpr ⟨c, hc, hs⟩)
  have hmapM : (chunkAux (List.range' lo (hi - lo)).length
      (List.range' lo (hi - lo)) n).mapM
      (fun c => generate_outcomes constSampler (some c) "cobol" none none none false) =
      some ((chunkAux (List.range' lo (hi - lo)).length (List.range' lo (hi - lo)) n).map
        (fun c => c.map fun s => (s, cobol_hash_ref s))) :=
    mapM_eq_map _ _ _ fun c hc =>
      generate_outcomes_cobol_explicit constSampler c none none none false (hchunkmem c hc)
  have hflat2 : ((chunkAux (List.range' lo (hi - lo)).length
      (List.range' lo (hi - lo)) n).map
      (fun c => c.map fun s => (s, cobol_hash_ref s))).flatten =
      (List.range' lo (hi - lo)).map fun s => (s, cobol_hash_ref s) := by
    rw [← List.map_flatten, hflat]
  refine ⟨(List.insertionSort rowGE
      ((List.range' lo (hi - lo)).map fun s => (s, cobol_hash_ref s))).enum, ?_, ?_, ?_, ?_⟩
  · simp only [generate_all_L_RAND, hchunks, hmapM, hflat2]
  · rw [List.enum_length,
      (List.perm_insertionSort rowGE _).length_eq, List.length_map, List.length_range']
  · have hsorted := List.sorted_insertionSort rowGE
      ((List.range' lo (hi - lo)).map fun s => (s, cobol_hash_ref s))
    rw [show (List.insertionSort rowGE
        ((List.range' lo (hi - lo)).map fun s => (s, cobol_hash_ref s))).enum.map
          (fun r => r.2.2) =
        ((List.insertionSort rowGE
          ((List.range' lo (hi - lo)).map fun s => (s, cobol_hash_ref s))).enum.map
            Prod.snd).map (fun p => p.2) from by rw [List.map_map]; rfl]
    rw [List.enum_map_snd]
    exact List.Pairwise.map _ (fun a b hab => hab) hsorted
  · rw [List.enum_map_fst, (List.perm_insertionSort rowGE _).length_eq, List.length_map,
      List.length_range']

/-- C6 counterexample: the domain `[0, 1)` with chunk length 1 contains
identifier 0, whose exact-kernel evaluation raises; the pipeline aborts
and produces no dataset at all, rather than a 1-row dataset. -/
theorem generate_all_L_RAND_zero_counterexample : generate_all_L_RAND 0 1 1 = none := by
  decide

theorem generate_all_L_RAND_invariants_witness :
    1 ≤ 2 ∧ 2 < 5 ∧ 5 ≤ 10 ^ 9 ∧ 0 < 2 ∧
      (∃ rows, generate_all_L_RAND 2 5 2 = some rows ∧
        rows.length = 5 - 2 ∧
        List.Sorted (· ≥ ·) (rows.map fun r => r.2.2) ∧
        rows.map Prod.fst = List.range (5 - 2)) :=
  ⟨by decide, by decide, by decide, by decide,
    generate_all_L_RAND_invariants 2 5 2 (by decide) (by decide) (by decide) (by decide)⟩
